import Mathlib

/-!
Shallow embedding of the two containers of `src/rpg-syntax.ts`:

* `Inventory`, a binary search tree of `Item`s keyed by the string field
  `name` (class `Inventory` with node class `BSTNode`, lines 189-233), and
* `PriorityQueue`, an array kept sorted in descending priority order
  (class `PriorityQueue`, lines 174-184).

State is modelled explicitly: the `Inventory` state is the tree reachable
from `this.root`, and the `PriorityQueue` state is its `heap` array,
modelled as a list.  JavaScript string comparison (`<`, `===`) on the
`name` keys is modelled by lexicographic order and equality on the
strings' character lists, and the numeric priorities by `Int`.
-/

/-- JavaScript `<` on strings: lexicographic comparison, modelled as the
core lexicographic order on the strings' character lists (the order
underlying `String.instLT`). -/
def strLt (a b : String) : Prop :=
  @LT.lt (List Char) List.instLT a.data b.data

/-- Computable decision procedure for `strLt`, by structural recursion
on the character lists. -/
instance strLtDec (a b : String) : Decidable (strLt a b) :=
  inferInstanceAs (Decidable (@LT.lt (List Char) List.instLT a.data b.data))

/-- Reflexive closure of `strLt`: `a` is at most `b` in the
lexicographic string order. -/
def strLe (a b : String) : Prop :=
  strLt a b ∨ a = b

/-- Embedding of `enum Rarity` (src/rpg-syntax.ts lines 6-11). -/
inductive Rarity where
  | Common
  | Uncommon
  | Rare
  | Legendary
deriving DecidableEq, Repr

/-- Embedding of `type Item = { name: string; rarity: Rarity }`
(src/rpg-syntax.ts line 190). -/
structure Item where
  name : String
  rarity : Rarity
deriving DecidableEq, Repr

/-- Embedding of `BSTNode<Item> | null` (src/rpg-syntax.ts lines 191-195):
`nil` is the `null` reference, `node left value right` is a `BSTNode`
with fields `left`, `value`, `right`. -/
inductive BSTree where
  | nil
  | node (left : BSTree) (value : Item) (right : BSTree)
deriving DecidableEq, Repr

namespace Inventory

/-- Embedding of the inner `insertNode` of `Inventory.insert`
(src/rpg-syntax.ts lines 199-207).  The TypeScript function both mutates
the node it is given and returns a node, so it is modelled as returning a
pair: the first component is the state of the argument node after the
call (its mutated child slots), the second is the returned node.

The source reads
`return value.name < node.value.name ? (node.left = insertNode(node.left, value)) : (node.right = insertNode(node.right, value));`
so the value written into the child slot, and also returned, is the
RETURN value of the recursive call — not the mutated child.  The mutated
old child (first component of the recursive call) is overwritten in the
slot and becomes unreachable, hence it is discarded here exactly as in
the source. -/
def insertNode : BSTree → Item → BSTree × BSTree
  | .nil, value => (.node .nil value .nil, .node .nil value .nil)
  | .node l x r, value =>
    if strLt value.name x.name then
      (.node (insertNode l value).2 x r, (insertNode l value).2)
    else
      (.node l x (insertNode r value).2, (insertNode r value).2)

/-- Embedding of `Inventory.insert` (src/rpg-syntax.ts lines 198-209):
`this.root = insertNode(this.root, item);` — the new root is the node
RETURNED by `insertNode`, i.e. the second component. -/
def insert (root : BSTree) (item : Item) : BSTree :=
  (insertNode root item).2

/-- The tree reachable from `this.root` of a fresh `Inventory`
(`root = null`) after the given sequence of `insert` calls. -/
def buildTree (items : List Item) : BSTree :=
  items.foldl insert .nil

/-- Embedding of `Inventory.traverseInOrder` (src/rpg-syntax.ts lines
210-218), with the sequence of `callback` invocations modelled as the
list of the visited nodes' `value` fields in visit order:
left subtree first, then the node itself, then the right subtree. -/
def traverseInOrder : BSTree → List Item
  | .nil => []
  | .node l v r => traverseInOrder l ++ v :: traverseInOrder r

/-- Number of nodes reachable in the tree. -/
def size : BSTree → Nat
  | .nil => 0
  | .node l _ r => size l + 1 + size r

/-- Embedding of the inner `searchNode` of `Inventory.searchItem`
(src/rpg-syntax.ts lines 220-230): returns the found node, or `none`
for `null`. -/
def searchNode : BSTree → String → Option BSTree
  | .nil, _ => none
  | .node l v r, name =>
    if name = v.name then some (.node l v r)
    else if strLt name v.name then searchNode l name
    else searchNode r name

/-- The `value` field of a node, `none` on `null`; used to model the
`?.value || null` projection (an `Item` object is always truthy, so
`|| null` only converts `undefined` to `null`). -/
def valueOf : BSTree → Option Item
  | .nil => none
  | .node _ v _ => some v

/-- Embedding of `Inventory.searchItem` (src/rpg-syntax.ts lines 219-232):
`return searchNode(this.root, name)?.value || null;`. -/
def searchItem (root : BSTree) (name : String) : Option Item :=
  (searchNode root name).bind valueOf

/-- The binary-search-tree ordering invariant as stated by the spec:
every key in the left subtree is strictly less than the node's key, and
every key in the right subtree is greater than or equal to it, at every
reachable node. -/
def isBST : BSTree → Prop
  | .nil => True
  | .node l v r =>
      (∀ x ∈ traverseInOrder l, strLt x.name v.name) ∧
      (∀ x ∈ traverseInOrder r, strLe v.name x.name) ∧
      isBST l ∧ isBST r

/-- The node returned by `insertNode` is always the freshly created leaf
holding only the inserted item, because the source's ternary expression
evaluates to the child ASSIGNMENT's value, which is the recursive
return value, with base case `new BSTNode(value)`. -/
theorem insertNode_snd (t : BSTree) (it : Item) :
    (insertNode t it).2 = .node .nil it .nil := by
  induction t with
  | nil => rfl
  | node l x r ihl ihr =>
    by_cases h : strLt it.name x.name
    · simp [insertNode, h, ihl]
    · simp [insertNode, h, ihr]

/-- Inserting into any tree replaces the root by the new single-item
leaf. -/
theorem insert_eq_leaf (t : BSTree) (it : Item) :
    insert t it = .node .nil it .nil :=
  insertNode_snd t it

/-- Folding `insert` over a non-empty item sequence ends at the leaf of
the last item, whatever the starting tree. -/
theorem foldl_insert_concat (items : List Item) (it : Item) (t : BSTree) :
    (items ++ [it]).foldl insert t = .node .nil it .nil := by
  induction items generalizing t with
  | nil => simpa using insert_eq_leaf t it
  | cons x xs ih => simpa using ih (insert t x)

/-- A tree built from a non-empty insert sequence is the single-node
leaf of the last inserted item. -/
theorem buildTree_concat (items : List Item) (it : Item) :
    buildTree (items ++ [it]) = .node .nil it .nil :=
  foldl_insert_concat items it .nil

/-- Every reachable `Inventory` tree is empty or a single leaf. -/
theorem buildTree_cases (items : List Item) :
    buildTree items = .nil ∨ ∃ it, buildTree items = .node .nil it .nil := by
  rcases List.eq_nil_or_concat items with rfl | ⟨l, it, rfl⟩
  · exact Or.inl rfl
  · exact Or.inr ⟨it, by rw [List.concat_eq_append]; exact buildTree_concat l it⟩

/-- In-order traversal visits the callback exactly once per reachable
node. -/
theorem length_traverseInOrder (t : BSTree) :
    (traverseInOrder t).length = size t := by
  induction t with
  | nil => rfl
  | node l v r ihl ihr =>
    simp only [traverseInOrder, size, List.length_append, List.length_cons, ihl, ihr]
    omega

/-- A successful `searchItem` result carries the queried name and was a
value of some reachable node. -/
theorem searchItem_eq_some (t : BSTree) (name : String) (it : Item)
    (h : searchItem t name = some it) :
    it.name = name ∧ it ∈ traverseInOrder t := by
  induction t with
  | nil => simp [searchItem, searchNode] at h
  | node l v r ihl ihr =>
    by_cases he : name = v.name
    · have hv : v = it := by
        simpa [searchItem, searchNode, he, valueOf] using h
      subst hv
      exact ⟨he.symm, by simp [traverseInOrder]⟩
    · by_cases hl : strLt name v.name
      · have h' : searchItem l name = some it := by
          simpa [searchItem, searchNode, he, hl] using h
        obtain ⟨h1, h2⟩ := ihl h'
        exact ⟨h1, by simp [traverseInOrder, h2]⟩
      · have h' : searchItem r name = some it := by
          simpa [searchItem, searchNode, he, hl] using h
        obtain ⟨h1, h2⟩ := ihr h'
        exact ⟨h1, by simp [traverseInOrder, h2]⟩

/-- If no reachable node carries the queried name, `searchItem` returns
the `null` sentinel. -/
theorem searchItem_not_mem (t : BSTree) (name : String)
    (h : ∀ it ∈ traverseInOrder t, it.name ≠ name) :
    searchItem t name = none := by
  cases hs : searchItem t name with
  | none => rfl
  | some it =>
    obtain ⟨h1, h2⟩ := searchItem_eq_some t name it hs
    exact absurd h1 (h it h2)

end Inventory

namespace PriorityQueue

/-- Embedding of the element type of the `heap` array of
`PriorityQueue<T>`: `{ value: T; priority: number }`
(src/rpg-syntax.ts line 176). -/
structure Entry (T : Type) where
  value : T
  priority : Int
deriving DecidableEq, Repr

/-- Insertion of one entry into a list, placed before the first entry of
priority less than or equal to its own. -/
def insertEntry {T : Type} (e : Entry T) : List (Entry T) → List (Entry T)
  | [] => [e]
  | f :: rest =>
    if f.priority ≤ e.priority then e :: f :: rest
    else f :: insertEntry e rest

/-- Stable insertion sort by descending priority.  This models
`this.heap.sort((a, b) => b.priority - a.priority)`
(src/rpg-syntax.ts line 179): ECMAScript `Array.prototype.sort` is a
stable sort, and with this comparator consecutive elements `a`, `b` of
the result satisfy `b.priority - a.priority <= 0`, i.e. the array is in
non-increasing priority order with ties in original array order.
`sortDesc` computes exactly that ordering: an element is placed before
every element occurring later in the input whose priority does not
exceed its own. -/
def sortDesc {T : Type} : List (Entry T) → List (Entry T)
  | [] => []
  | e :: rest => insertEntry e (sortDesc rest)

/-- Embedding of `PriorityQueue.enqueue` (src/rpg-syntax.ts lines
177-180): push the new entry at the end, then sort the whole array by
descending priority. -/
def enqueue {T : Type} (heap : List (Entry T)) (value : T) (priority : Int) :
    List (Entry T) :=
  sortDesc (heap ++ [⟨value, priority⟩])

/-- Embedding of `PriorityQueue.dequeue` (src/rpg-syntax.ts lines
181-183): `return this.heap.shift()?.value;` — remove the first entry
and return its value, `none` (for `undefined`) on an empty array.  The
pair is the returned value together with the state of the array after
the `shift`. -/
def dequeue {T : Type} : List (Entry T) → Option T × List (Entry T)
  | [] => (none, [])
  | e :: rest => (some e.value, rest)

/-- One operation of the public interface of `PriorityQueue`. -/
inductive QOp (T : Type) where
  | enq (value : T) (priority : Int)
  | deq
deriving Repr

/-- Effect of one operation on the `heap` state (`dequeue` discards the
returned value and keeps the new state). -/
def step {T : Type} (heap : List (Entry T)) : QOp T → List (Entry T)
  | .enq value priority => enqueue heap value priority
  | .deq => (dequeue heap).2

/-- The `heap` state of a freshly constructed `PriorityQueue` (empty
array) after an arbitrary interleaving of enqueue and dequeue calls. -/
def runOps {T : Type} (ops : List (QOp T)) : List (Entry T) :=
  ops.foldl step []

/-- Non-increasing priority order of the entry list. -/
def sortedDesc {T : Type} (heap : List (Entry T)) : Prop :=
  List.Pairwise (fun a b => b.priority ≤ a.priority) heap

/-- Position taken by a newly appended entry when an already-sorted
array is stable-sorted again: the entry lands after every existing
entry whose priority is at least its own and before the first one of
strictly lower priority. -/
def insertTail {T : Type} (e : Entry T) : List (Entry T) → List (Entry T)
  | [] => [e]
  | f :: rest =>
    if e.priority ≤ f.priority then f :: insertTail e rest
    else e :: f :: rest

/-- Instrumentation of an operation sequence for stating stability:
each enqueued value is paired with its insertion serial number, counted
from the given start. -/
def tagOps {T : Type} : Nat → List (QOp T) → List (QOp (T × Nat))
  | _, [] => []
  | n, .enq v p :: rest => .enq (v, n) p :: tagOps (n + 1) rest
  | n, .deq :: rest => .deq :: tagOps n rest

/-- Strictly descending priority, with ties ordered by increasing
insertion serial number. -/
def stableRel {T : Type} (a b : Entry (T × Nat)) : Prop :=
  b.priority < a.priority ∨
    (b.priority = a.priority ∧ a.value.2 < b.value.2)

/-- Invariant of a tagged heap state while the next serial number is
`n`: entries are in `stableRel` order and all serial numbers are below
`n`. -/
def stableInv {T : Type} (n : Nat) (q : List (Entry (T × Nat))) : Prop :=
  List.Pairwise stableRel q ∧ ∀ f ∈ q, f.value.2 < n

/-- Membership after `insertEntry`: every element is the inserted entry
or an element of the original list. -/
theorem mem_insertEntry {T : Type} (e x : Entry T) (l : List (Entry T))
    (h : x ∈ insertEntry e l) : x = e ∨ x ∈ l := by
  induction l with
  | nil => simpa [insertEntry] using h
  | cons f rest ih =>
    by_cases hc : f.priority ≤ e.priority
    · simpa [insertEntry, hc] using h
    · rcases (by simpa [insertEntry, hc] using h : x = f ∨ x ∈ insertEntry e rest) with h' | h'
      · exact Or.inr (by simp [h'])
      · rcases ih h' with h'' | h''
        · exact Or.inl h''
        · exact Or.inr (by simp [h''])

/-- Inserting an entry into a descending-sorted list keeps it sorted. -/
theorem sortedDesc_insertEntry {T : Type} (e : Entry T) (l : List (Entry T))
    (h : sortedDesc l) : sortedDesc (insertEntry e l) := by
  induction l with
  | nil => simp [insertEntry, sortedDesc]
  | cons f rest ih =>
    obtain ⟨hf, hrest⟩ := List.pairwise_cons.mp h
    by_cases hc : f.priority ≤ e.priority
    · rw [insertEntry, if_pos hc]
      refine List.Pairwise.cons ?_ h
      intro y hy
      rcases List.mem_cons.mp hy with rfl | hy
      · exact hc
      · exact le_trans (hf y hy) hc
    · rw [insertEntry, if_neg hc]
      refine List.Pairwise.cons ?_ (ih hrest)
      intro y hy
      rcases mem_insertEntry e y rest hy with rfl | hy
      · exact le_of_lt (lt_of_not_le hc)
      · exact hf y hy

/-- The result of `sortDesc` is always in non-increasing priority
order. -/
theorem sortedDesc_sortDesc {T : Type} (l : List (Entry T)) :
    sortedDesc (sortDesc l) := by
  induction l with
  | nil => simp [sortDesc, sortedDesc]
  | cons e rest ih => exact sortedDesc_insertEntry e (sortDesc rest) ih

/-- Each single operation leaves the heap in non-increasing priority
order. -/
theorem sortedDesc_step {T : Type} (q : List (Entry T)) (op : QOp T)
    (h : sortedDesc q) : sortedDesc (step q op) := by
  cases op with
  | enq v p => exact sortedDesc_sortDesc (q ++ [⟨v, p⟩])
  | deq =>
    cases q with
    | nil => exact h
    | cons e rest => exact (List.pairwise_cons.mp h).2

/-- Invariant of the `heap` state under arbitrary operation sequences,
from an arbitrary sorted start. -/
theorem sortedDesc_foldl {T : Type} (ops : List (QOp T)) (q : List (Entry T))
    (h : sortedDesc q) : sortedDesc (ops.foldl step q) := by
  induction ops generalizing q with
  | nil => exact h
  | cons op rest ih =>
    simpa using ih (step q op) (sortedDesc_step q op h)

/-- Any interleaving of enqueue and dequeue calls on a fresh queue
leaves the heap in non-increasing priority order. -/
theorem sortedDesc_runOps {T : Type} (ops : List (QOp T)) :
    sortedDesc (runOps ops) :=
  sortedDesc_foldl ops [] (by simp [sortedDesc])

/-- Membership after `insertTail`: every element is the inserted entry
or an element of the original list. -/
theorem mem_insertTail {T : Type} (e x : Entry T) (l : List (Entry T))
    (h : x ∈ insertTail e l) : x = e ∨ x ∈ l := by
  induction l with
  | nil => simpa [insertTail] using h
  | cons f rest ih =>
    by_cases hc : e.priority ≤ f.priority
    · rcases (by simpa [insertTail, hc] using h : x = f ∨ x ∈ insertTail e rest)
        with h' | h'
      · exact Or.inr (by simp [h'])
      · rcases ih h' with h'' | h''
        · exact Or.inl h''
        · exact Or.inr (by simp [h''])
    · simpa [insertTail, hc] using h

/-- Appending one entry to an already-sorted array and re-sorting with
the stable descending sort places the new entry after all existing
entries of priority at least its own: the appended element came last in
the input, so stability keeps it behind every tie. -/
theorem sortDesc_append {T : Type} (q : List (Entry T)) (e : Entry T)
    (h : sortedDesc q) : sortDesc (q ++ [e]) = insertTail e q := by
  induction q with
  | nil => rfl
  | cons x q' ih =>
    obtain ⟨hx, hq'⟩ := List.pairwise_cons.mp h
    have hstep : sortDesc ((x :: q') ++ [e]) = insertEntry x (insertTail e q') := by
      rw [List.cons_append, sortDesc, ih hq']
    rw [hstep]
    by_cases hex : e.priority ≤ x.priority
    · rw [insertTail, if_pos hex]
      cases q' with
      | nil => simp [insertTail, insertEntry, hex]
      | cons f r =>
        by_cases hef : e.priority ≤ f.priority
        · rw [insertTail, if_pos hef, insertEntry, if_pos (hx f (by simp))]
        · rw [insertTail, if_neg hef, insertEntry, if_pos hex]
    · have h1 : insertTail e q' = e :: q' := by
        cases q' with
        | nil => rfl
        | cons f r =>
          have : ¬ e.priority ≤ f.priority :=
            fun hle => hex (le_trans hle (hx f (by simp)))
          rw [insertTail, if_neg this]
      rw [h1, insertEntry, if_neg hex, insertTail, if_neg hex]
      congr 1
      cases q' with
      | nil => rfl
      | cons f r => rw [insertEntry, if_pos (hx f (by simp))]

/-- `stableRel` order implies non-increasing priority order. -/
theorem sortedDesc_of_stable {T : Type} (q : List (Entry (T × Nat)))
    (h : List.Pairwise stableRel q) : sortedDesc q := by
  refine h.imp ?_
  intro a b hab
  rcases hab with h' | ⟨h', _⟩
  · exact le_of_lt h'
  · exact le_of_eq h'

/-- Inserting an entry whose serial number exceeds all present serial
numbers, at the position `insertTail` gives it, preserves the stable
order. -/
theorem stableRel_insertTail {T : Type} (e : Entry (T × Nat))
    (q : List (Entry (T × Nat))) (hq : List.Pairwise stableRel q)
    (htag : ∀ f ∈ q, f.value.2 < e.value.2) :
    List.Pairwise stableRel (insertTail e q) := by
  induction q with
  | nil => simp [insertTail]
  | cons f rest ih =>
    obtain ⟨hf, hrest⟩ := List.pairwise_cons.mp hq
    by_cases hef : e.priority ≤ f.priority
    · rw [insertTail, if_pos hef]
      refine List.Pairwise.cons ?_ (ih hrest (fun y hy => htag y (by simp [hy])))
      intro y hy
      rcases mem_insertTail e y rest hy with rfl | hy
      · rcases lt_or_eq_of_le hef with hlt | heq
        · exact Or.inl hlt
        · exact Or.inr ⟨heq, htag f (by simp)⟩
      · exact hf y hy
    · rw [insertTail, if_neg hef]
      have hfe : f.priority < e.priority := not_le.mp hef
      refine List.Pairwise.cons ?_ hq
      intro y hy
      rcases List.mem_cons.mp hy with rfl | hy
      · exact Or.inl hfe
      · have hyf : y.priority ≤ f.priority := by
          rcases hf y hy with h' | ⟨h', _⟩
          · exact le_of_lt h'
          · exact le_of_eq h'
        exact Or.inl (lt_of_le_of_lt hyf hfe)

/-- Enqueueing with the next serial number preserves the stability
invariant and advances the counter. -/
theorem stableInv_enqueue {T : Type} (n : Nat) (q : List (Entry (T × Nat)))
    (v : T) (p : Int) (h : stableInv n q) :
    stableInv (n + 1) (enqueue q (v, n) p) := by
  obtain ⟨hq, htag⟩ := h
  have he : enqueue q (v, n) p = insertTail ⟨(v, n), p⟩ q :=
    sortDesc_append q ⟨(v, n), p⟩ (sortedDesc_of_stable q hq)
  constructor
  · rw [he]
    exact stableRel_insertTail ⟨(v, n), p⟩ q hq (fun f hf => htag f hf)
  · rw [he]
    intro f hf
    rcases mem_insertTail ⟨(v, n), p⟩ f q hf with rfl | hf
    · exact Nat.lt_succ_self n
    · exact Nat.lt_succ_of_lt (htag f hf)

/-- Dequeueing preserves the stability invariant. -/
theorem stableInv_dequeued {T : Type} (n : Nat) (q : List (Entry (T × Nat)))
    (h : stableInv n q) : stableInv n (dequeue q).2 := by
  cases q with
  | nil => exact h
  | cons e rest =>
    exact ⟨(List.pairwise_cons.mp h.1).2,
      fun f hf => h.2 f (List.mem_cons_of_mem e hf)⟩

/-- Running a tagged operation suffix from any state satisfying the
stability invariant keeps the heap in stable order. -/
theorem stablePairwise_foldl {T : Type} (ops : List (QOp T)) (n : Nat)
    (q : List (Entry (T × Nat))) (h : stableInv n q) :
    List.Pairwise stableRel ((tagOps n ops).foldl step q) := by
  induction ops generalizing n q with
  | nil => exact h.1
  | cons op rest ih =>
    cases op with
    | enq v p =>
      rw [tagOps, List.foldl_cons]
      exact ih (n + 1) _ (stableInv_enqueue n q v p h)
    | deq =>
      rw [tagOps, List.foldl_cons]
      exact ih n _ (stableInv_dequeued n q h)

/-- After any interleaving of enqueue and dequeue calls on a fresh
queue, with enqueues tagged by insertion serial number, the heap is in
stable order: descending priority, ties in insertion order. -/
theorem stablePairwise_runOps {T : Type} (ops : List (QOp T)) :
    List.Pairwise stableRel (runOps (tagOps 0 ops)) :=
  stablePairwise_foldl ops 0 [] ⟨List.Pairwise.nil, by simp⟩

end PriorityQueue

open Inventory PriorityQueue

/-- C1: the claim states that `search(name)` finds a match exactly when
some inserted item has that name.  The code violates it: after inserting
items named "a" then "b" (so "a" was inserted), `searchItem` returns the
not-found sentinel for "a", because each insert replaces the root by a
fresh leaf holding only the most recent item. -/
theorem claim_C1 :
    (⟨"a", .Common⟩ : Item) ∈ ([⟨"a", .Common⟩, ⟨"b", .Common⟩] : List Item) ∧
    searchItem (buildTree [⟨"a", .Common⟩, ⟨"b", .Common⟩]) "a" = none := by
  constructor
  · simp
  · decide

/-- C2: the claim states that inserting names "b", "a", "b" and then
traversing in order visits three items named "a", "b", "b".  The code
violates it: the traversal visits exactly one node, named "b" (the last
item inserted), since each insert discards the previous tree. -/
theorem claim_C2 :
    (traverseInOrder (buildTree
        [⟨"b", .Common⟩, ⟨"a", .Common⟩, ⟨"b", .Common⟩])).map Item.name
      = ["b"] := by
  decide

/-- C3: inserting into a non-empty tree sets the root to the newly
created single-item leaf (because `insertNode` returns the value of the
child assignment), so after any sequence of `n >= 1` inserts the
reachable tree is exactly the one-node leaf of the last item. -/
theorem claim_C3 (t : BSTree) (it : Item) (items : List Item) (h : t ≠ .nil) :
    Inventory.insert t it = .node .nil it .nil ∧
    buildTree (items ++ [it]) = .node .nil it .nil ∧
    size (buildTree (items ++ [it])) = 1 := by
  refine ⟨insert_eq_leaf t it, buildTree_concat items it, ?_⟩
  rw [buildTree_concat items it]
  rfl

/-- Witness for C3 at a concrete non-empty tree and insert sequence. -/
theorem claim_C3_witness :
    Inventory.insert (BSTree.node .nil ⟨"x", .Common⟩ .nil) ⟨"y", .Common⟩
        = .node .nil ⟨"y", .Common⟩ .nil ∧
    buildTree ([⟨"x", .Common⟩] ++ [⟨"y", .Common⟩])
        = .node .nil ⟨"y", .Common⟩ .nil ∧
    size (buildTree ([⟨"x", .Common⟩] ++ [⟨"y", .Common⟩])) = 1 :=
  claim_C3 (.node .nil ⟨"x", .Common⟩ .nil) ⟨"y", .Common⟩ [⟨"x", .Common⟩]
    (by decide)

/-- C4: for every insert sequence, the in-order traversal invokes the
callback once per reachable node, the visited names are in non-decreasing
lexicographic order, and the traversal of an empty tree visits zero
nodes.  (It holds degenerately: a reachable tree never has more than one
node, see C3.) -/
theorem claim_C4 (items : List Item) :
    (traverseInOrder (buildTree items)).length = size (buildTree items) ∧
    List.Pairwise (fun a b : Item => strLe a.name b.name)
        (traverseInOrder (buildTree items)) ∧
    traverseInOrder .nil = [] := by
  refine ⟨length_traverseInOrder _, ?_, rfl⟩
  rcases buildTree_cases items with h | ⟨it, h⟩ <;> rw [h] <;>
    simp [traverseInOrder]

/-- C5: after any interleaving of enqueue and dequeue calls, a dequeue
on a non-empty queue removes and returns the value of the head entry,
whose priority is greater than or equal to the priority of every entry
still held in the queue. -/
theorem claim_C5 {T : Type} (ops : List (QOp T)) (e : Entry T)
    (rest : List (Entry T)) (h : runOps ops = e :: rest) :
    (dequeue (runOps ops)).1 = some e.value ∧
    ∀ f ∈ (dequeue (runOps ops)).2, f.priority ≤ e.priority := by
  have hs := sortedDesc_runOps ops
  rw [h] at hs ⊢
  exact ⟨rfl, (List.pairwise_cons.mp hs).1⟩

/-- Witness for C5 at a concrete operation sequence. -/
theorem claim_C5_witness :
    (dequeue (runOps [QOp.enq "a" 5])).1 = some (Entry.mk "a" 5).value ∧
    ∀ f ∈ (dequeue (runOps [QOp.enq "a" 5])).2,
      f.priority ≤ (Entry.mk "a" 5).priority :=
  claim_C5 [QOp.enq "a" 5] ⟨"a", 5⟩ [] (by decide)

/-- C6: the tie-break is stable on insertion order.  Generally: after
any interleaving of enqueue and dequeue calls on a fresh queue, with
each enqueued value tagged by its insertion serial number, entries of
equal priority occur in the heap in increasing insertion order, and
dequeue removes the head of the heap — so among equal-priority entries
the earliest-inserted one is always dequeued first.  Concretely:
enqueueing ("Defend Village", 2), ("Attack Orcs", 1), ("Guard Gate", 2)
on a fresh queue dequeues "Defend Village", then "Guard Gate", then
"Attack Orcs". -/
theorem claim_C6 {T : Type} (ops : List (QOp T)) :
    List.Pairwise
      (fun a b => a.priority = b.priority → a.value.2 < b.value.2)
      (runOps (tagOps 0 ops)) ∧
    (∀ q : List (Entry (T × Nat)),
      dequeue q = (q.head?.map Entry.value, q.tail)) ∧
    (dequeue (runOps [QOp.enq "Defend Village" 2, QOp.enq "Attack Orcs" 1,
        QOp.enq "Guard Gate" 2])).1 = some "Defend Village" ∧
    (dequeue (dequeue (runOps [QOp.enq "Defend Village" 2,
        QOp.enq "Attack Orcs" 1, QOp.enq "Guard Gate" 2])).2).1
      = some "Guard Gate" ∧
    (dequeue (dequeue (dequeue (runOps [QOp.enq "Defend Village" 2,
        QOp.enq "Attack Orcs" 1, QOp.enq "Guard Gate" 2])).2).2).1
      = some "Attack Orcs" := by
  refine ⟨?_, ?_, by decide, by decide, by decide⟩
  · refine (stablePairwise_runOps ops).imp ?_
    intro a b hab heq
    rcases hab with h' | ⟨_, h'⟩
    · exact absurd heq (ne_of_gt h')
    · exact h'
  · intro q
    cases q <;> rfl

/-- C7: absence is signalled by sentinels, never by a thrown error:
dequeue on an empty queue returns the `undefined` sentinel, and search
on any tree none of whose reachable items carries the queried name
(including the fresh empty tree) returns the `null` sentinel.  Every
modelled operation is a total function. -/
theorem claim_C7 {T : Type} (t : BSTree) (name : String)
    (h : ∀ it ∈ traverseInOrder t, it.name ≠ name) :
    (dequeue ([] : List (Entry T))).1 = none ∧
    searchItem t name = none ∧
    searchItem .nil name = none :=
  ⟨rfl, searchItem_not_mem t name h, rfl⟩

/-- Witness for C7 at a concrete tree, name and entry type. -/
theorem claim_C7_witness :
    (dequeue ([] : List (Entry String))).1 = none ∧
    searchItem (buildTree [⟨"a", .Common⟩]) "z" = none ∧
    searchItem .nil "z" = none :=
  claim_C7 (buildTree [⟨"a", .Common⟩]) "z" (by decide)

/-- C8: after every insertion sequence the binary-search-tree ordering
invariant holds at every reachable node: left-subtree keys strictly
below the node's key, right-subtree keys at least the node's key.  (It
holds degenerately: a reachable tree never has more than one node, see
C3.) -/
theorem claim_C8 (items : List Item) : isBST (buildTree items) := by
  rcases buildTree_cases items with h | ⟨it, h⟩ <;> rw [h] <;>
    simp [isBST, traverseInOrder]

/-- C9: inserting the in-order traversal output of a reachable tree
into a fresh tree, in that exact sequence, reproduces the same in-order
traversal.  (It holds degenerately: a reachable tree never has more
than one node, see C3.) -/
theorem claim_C9 (items : List Item) :
    traverseInOrder (buildTree (traverseInOrder (buildTree items)))
      = traverseInOrder (buildTree items) := by
  rcases buildTree_cases items with h | ⟨it, h⟩ <;> rw [h] <;> rfl

/-- C10: the heap array is in non-increasing priority order after any
operation sequence on a fresh queue and after any single enqueue on any
heap state, and dequeue is exactly removal of the head of the array. -/
theorem claim_C10 {T : Type} (ops : List (QOp T)) (heap : List (Entry T))
    (v : T) (p : Int) :
    sortedDesc (runOps ops) ∧
    sortedDesc (enqueue heap v p) ∧
    dequeue heap = (heap.head?.map Entry.value, heap.tail) := by
  refine ⟨sortedDesc_runOps ops, sortedDesc_sortDesc _, ?_⟩
  cases heap <;> rfl
